import Mathlib

/-!
Verification of the server-side drawing core (`drawingState.ts`) of the
collaborative-canvas repository: the append-only operation log and the
visibility-resolution algorithm for cross-user undo/redo.

The embedding is a direct functional translation of the `DrawingState`
class.  The JavaScript `Map<string, Stroke>` is modelled as a list of
strokes in insertion order (a `Map` iterates in insertion order and the
code only ever inserts fresh uuid keys); in-place mutation of a stroke
object held by the map is modelled as an id-preserving update of the
list.  `uuidv4()` and `Date.now()` are modelled as explicit `id` /
`timestamp` arguments; freshness of a uuid becomes an explicit
hypothesis where a proof needs it.  Numeric fields (`x`, `y`, `t`,
`width`) are carried as `Int`: the core never computes with them, it
only stores and copies them.
-/

/-- A single canvas point: `{x, y, t}` from `drawingState.ts`. -/
structure Point where
  x : Int
  y : Int
  t : Int
deriving DecidableEq, Repr

/-- The drawing tool of a stroke: `'brush' | 'eraser'`. -/
inductive Tool where
  | brush
  | eraser
deriving DecidableEq, Repr

/-- A stroke record, as stored in the `strokes` map of `DrawingState`. -/
structure Stroke where
  id : String
  userId : String
  tool : Tool
  color : String
  width : Int
  points : List Point
  complete : Bool
deriving DecidableEq, Repr

/-- An entry of the append-only operation log: the tagged union
`Operation` of `drawingState.ts` (`stroke` / `undo` / `redo`). -/
inductive Operation where
  | stroke (strokeId : String) (timestamp : Int) (userId : String)
  | undo (targetStrokeId : String) (timestamp : Int) (userId : String) (id : String)
  | redo (targetUndoOpId : String) (timestamp : Int) (userId : String) (id : String)
deriving DecidableEq, Repr

/-- The per-room authoritative state of `DrawingState`: the stroke store
(insertion-ordered, one entry per stroke id) and the operation log. -/
structure DrawingState where
  strokes : List Stroke
  operations : List Operation
deriving DecidableEq, Repr

namespace DrawingState

/-- The empty state a fresh `DrawingState()` starts from. -/
def empty : DrawingState := ⟨[], []⟩

/-- Lookup in the stroke store: `this.strokes.get(strokeId)`. -/
def getStroke (st : DrawingState) (strokeId : String) : Option Stroke :=
  st.strokes.find? (fun s => s.id = strokeId)

/-- `createStroke(userId, tool, color, width)`: allocates the stroke with
the given fresh `id`, registers it in the store and appends its
`stroke` operation to the log.  Always succeeds. -/
def createStroke (userId : String) (tool : Tool) (color : String) (width : Int)
    (id : String) (timestamp : Int) (st : DrawingState) : Stroke × DrawingState :=
  let stroke : Stroke := ⟨id, userId, tool, color, width, [], false⟩
  (stroke,
    ⟨st.strokes ++ [stroke],
     st.operations ++ [Operation.stroke id timestamp userId]⟩)

/-- `appendPoints(strokeId, points)`: pushes the points onto the stored
stroke, `false` (NotFound) when the id is unknown. -/
def appendPoints (strokeId : String) (points : List Point) (st : DrawingState) :
    Bool × DrawingState :=
  match st.strokes.find? (fun s => s.id = strokeId) with
  | none => (false, st)
  | some _ =>
      (true,
        ⟨st.strokes.map (fun s =>
            if s.id = strokeId then { s with points := s.points ++ points } else s),
         st.operations⟩)

/-- `completeStroke(strokeId)`: sets `complete = true`, `false`
(NotFound) when the id is unknown. -/
def completeStroke (strokeId : String) (st : DrawingState) : Bool × DrawingState :=
  match st.strokes.find? (fun s => s.id = strokeId) with
  | none => (false, st)
  | some _ =>
      (true,
        ⟨st.strokes.map (fun s =>
            if s.id = strokeId then { s with complete := true } else s),
         st.operations⟩)

/-- The inner search of the visibility loop and of `redoStroke`:
`operations.find(o => o.type === 'undo' && o.id === undoId)`. -/
def findMatchingUndo (ops : List Operation) (undoId : String) : Option Operation :=
  ops.find? (fun o =>
    match o with
    | Operation.undo _ _ _ i => i = undoId
    | _ => false)

/-- One step of the counting loop of `isStrokeVisible`: `allOps` is the
full log the redo branch searches, `strokeId` the stroke being tested. -/
def visStep (allOps : List Operation) (strokeId : String) :
    Nat × Nat → Operation → Nat × Nat :=
  fun uc_rc op =>
    match op with
    | Operation.undo t _ _ _ =>
        if t = strokeId then (uc_rc.1 + 1, uc_rc.2) else uc_rc
    | Operation.redo targetUndoOpId _ _ _ =>
        match findMatchingUndo allOps targetUndoOpId with
        | some (Operation.undo t _ _ _) =>
            if t = strokeId then (uc_rc.1, uc_rc.2 + 1) else uc_rc
        | _ => uc_rc
    | Operation.stroke _ _ _ => uc_rc

/-- `isStrokeVisible(strokeId)`: the loop accumulating `undoCount` and
`redoCount` over the whole log, then `undoCount <= redoCount`. -/
def isStrokeVisible (st : DrawingState) (strokeId : String) : Bool :=
  let counts := st.operations.foldl (visStep st.operations strokeId) (0, 0)
  decide (counts.1 ≤ counts.2)

/-- `undoStroke(userId, targetStrokeId)`: `none` (Rejected) when the
stroke is unknown or already invisible; otherwise appends an `undo`
operation carrying the fresh `undoId` and returns that id. -/
def undoStroke (userId : String) (targetStrokeId : String) (undoId : String)
    (timestamp : Int) (st : DrawingState) : Option String × DrawingState :=
  match st.strokes.find? (fun s => s.id = targetStrokeId) with
  | none => (none, st)
  | some _ =>
      if !(st.isStrokeVisible targetStrokeId) then (none, st)
      else
        (some undoId,
          ⟨st.strokes,
           st.operations ++ [Operation.undo targetStrokeId timestamp userId undoId]⟩)

/-- The `alreadyRedone` test of `redoStroke`:
`operations.some(op => op.type === 'redo' && op.targetUndoOpId === targetUndoOpId)`. -/
def anyRedoTargeting (ops : List Operation) (targetUndoOpId : String) : Bool :=
  ops.any (fun op =>
    match op with
    | Operation.redo t _ _ _ => t = targetUndoOpId
    | _ => false)

/-- `redoStroke(userId, targetUndoOpId)`: `false` (Rejected) when no undo
operation carries that id or a redo already references it; otherwise
appends a `redo` operation carrying the fresh `redoId`. -/
def redoStroke (userId : String) (targetUndoOpId : String) (redoId : String)
    (timestamp : Int) (st : DrawingState) : Bool × DrawingState :=
  match findMatchingUndo st.operations targetUndoOpId with
  | none => (false, st)
  | some _ =>
      if anyRedoTargeting st.operations targetUndoOpId then (false, st)
      else
        (true,
          ⟨st.strokes,
           st.operations ++ [Operation.redo targetUndoOpId timestamp userId redoId]⟩)

/-- The creation order of strokes as recorded in the log:
`operations.filter(op => op.type === 'stroke').map(op => op.strokeId)`. -/
def strokeOrder (ops : List Operation) : List String :=
  ops.filterMap (fun op =>
    match op with
    | Operation.stroke sid _ _ => some sid
    | _ => none)

/-- Stable insertion of a stroke into a list already sorted by the key:
models one step of the comparator sort
`result.sort((a, b) => order.indexOf(a.id) - order.indexOf(b.id))`. -/
def insertByKey (key : Stroke → Nat) (x : Stroke) : List Stroke → List Stroke
  | [] => [x]
  | y :: ys => if key x < key y then x :: y :: ys else y :: insertByKey key x ys

/-- Comparator sort by a numeric key, modelling `Array.prototype.sort`
with the comparator `(a, b) => key(a) - key(b)`. -/
def sortByKey (key : Stroke → Nat) : List Stroke → List Stroke
  | [] => []
  | x :: xs => insertByKey key x (sortByKey key xs)

/-- `getVisibleStrokes()`: filter the store by `isStrokeVisible` (the map
iterates in insertion order), then sort by the index of each stroke's
`stroke` operation in the log.  JavaScript `indexOf` yields `-1` for an
absent id; here an absent id maps to `order.length` instead — every
stored stroke id occurs in the log whenever the state was built by the
operations above, so both sorts receive the same comparisons there. -/
def getVisibleStrokes (st : DrawingState) : List Stroke :=
  let result := st.strokes.filter (fun s => st.isStrokeVisible s.id)
  let order := strokeOrder st.operations
  sortByKey (fun s => order.indexOf s.id) result

/-- `getLastVisibleStrokeByUser(userId)`: last element of the visible
strokes filtered to the user's completed ones. -/
def getLastVisibleStrokeByUser (st : DrawingState) (userId : String) :
    Option String :=
  let visibleStrokes := (st.getVisibleStrokes).filter
    (fun s => s.userId = userId && s.complete)
  (visibleStrokes.getLast?).map (fun s => s.id)

/-- `getLastUndoByUser(userId)`: last undo operation of that user not yet
referenced by any redo operation. -/
def getLastUndoByUser (st : DrawingState) (userId : String) : Option String :=
  let undoOps := st.operations.filter (fun op =>
    match op with
    | Operation.undo _ _ u i => u = userId && !(anyRedoTargeting st.operations i)
    | _ => false)
  (undoOps.getLast?).bind (fun op =>
    match op with
    | Operation.undo _ _ _ i => some i
    | _ => none)

/-! ### Counting functions over the log

`undoCount`/`redoCount` name the two counters the loop of
`isStrokeVisible` accumulates; `redoCountSpec` is the same counter
written the way the specification words it. -/

/-- Does the operation match the undo branch of the visibility loop:
`op.type === 'undo' && op.targetStrokeId === strokeId`? -/
def isUndoTargeting (strokeId : String) (op : Operation) : Bool :=
  match op with
  | Operation.undo t _ _ _ => t = strokeId
  | _ => false

/-- `undoCount(strokeId)`: the number of undo operations in the log
targeting the stroke. -/
def undoCount (ops : List Operation) (strokeId : String) : Nat :=
  ops.countP (isUndoTargeting strokeId)

/-- The redo branch of the visibility loop: the redo operation counts
for `strokeId` when the undo operation the log resolves its
`targetUndoOpId` to targets that stroke. -/
def redoResolvesTo (allOps : List Operation) (strokeId : String)
    (op : Operation) : Bool :=
  match op with
  | Operation.redo targetUndoOpId _ _ _ =>
      match findMatchingUndo allOps targetUndoOpId with
      | some (Operation.undo t _ _ _) => t = strokeId
      | _ => false
  | _ => false

/-- `redoCount(strokeId)` as the loop computes it. -/
def redoCount (ops : List Operation) (strokeId : String) : Nat :=
  ops.countP (redoResolvesTo ops strokeId)

/-- `redoCount(strokeId)` as the specification words it: the number of
redo operations whose target undo operation (any undo in the log
carrying the referenced id) targets the stroke. -/
def redoCountSpec (ops : List Operation) (strokeId : String) : Nat :=
  ops.countP (fun op =>
    match op with
    | Operation.redo targetUndoOpId _ _ _ =>
        ops.any (fun u =>
          match u with
          | Operation.undo t _ _ i => i = targetUndoOpId && t = strokeId
          | _ => false)
    | _ => false)

/-! ### Well-formedness of a log -/

/-- The ids of the undo operations of the log, in log order.  `uuidv4`
makes them pairwise distinct in every state the class can reach. -/
def undoIds (ops : List Operation) : List String :=
  ops.filterMap (fun op =>
    match op with
    | Operation.undo _ _ _ i => some i
    | _ => none)

/-- Every redo operation of the log resolves: some undo operation of the
log carries its `targetUndoOpId`.  `redoStroke` only ever appends such
redo operations. -/
def redosResolved (ops : List Operation) : Bool :=
  ops.all (fun op =>
    match op with
    | Operation.redo targetUndoOpId _ _ _ =>
        (findMatchingUndo ops targetUndoOpId).isSome
    | _ => true)

/-- Every id (stroke, undo or redo) occurring in the state; a fresh
`uuidv4` is modelled as an id outside this list. -/
def usedIds (st : DrawingState) : List String :=
  st.strokes.map (fun s => s.id) ++ strokeOrder st.operations ++
    st.operations.filterMap (fun op =>
      match op with
      | Operation.undo _ _ _ i => some i
      | Operation.redo _ _ _ i => some i
      | Operation.stroke _ _ _ => none)

/-- The stroke store lists exactly the strokes recorded in the log, in
log order, and ids are unambiguous: the store/log shape every sequence
of `DrawingState` operations maintains. -/
def WF (st : DrawingState) : Prop :=
  st.strokes.map (fun s => s.id) = strokeOrder st.operations ∧
  (strokeOrder st.operations).Nodup ∧
  (undoIds st.operations).Nodup ∧
  redosResolved st.operations = true

/-! ### The core operations as actions

`CoreAct` packages the three log-appending operations of the contract
(stroke creation, `requestUndo`, `requestRedo`) so that interleaving
properties can be stated uniformly. -/

/-- One core operation together with its inputs; the `id` arguments play
the role of the `uuidv4()` calls inside the methods. -/
inductive CoreAct where
  | createA (userId : String) (tool : Tool) (color : String) (width : Int)
      (id : String) (ts : Int)
  | undoA (userId : String) (targetStrokeId : String) (undoId : String) (ts : Int)
  | redoA (userId : String) (targetUndoOpId : String) (redoId : String) (ts : Int)
deriving DecidableEq, Repr

/-- Run one core operation against the state, keeping only the state. -/
def applyCore (st : DrawingState) : CoreAct → DrawingState
  | CoreAct.createA u t c w i ts => (createStroke u t c w i ts st).2
  | CoreAct.undoA u s i ts => (undoStroke u s i ts st).2
  | CoreAct.redoA u tu i ts => (redoStroke u tu i ts st).2

/-- The author issuing the action. -/
def actAuthor : CoreAct → String
  | CoreAct.createA u _ _ _ _ _ => u
  | CoreAct.undoA u _ _ _ => u
  | CoreAct.redoA u _ _ _ => u

/-- The fresh uuid the action brings into the state. -/
def newIds : CoreAct → List String
  | CoreAct.createA _ _ _ _ i _ => [i]
  | CoreAct.undoA _ _ i _ => [i]
  | CoreAct.redoA _ _ i _ => [i]

/-- The pre-existing ids the action refers to. -/
def refIds : CoreAct → List String
  | CoreAct.createA _ _ _ _ _ _ => []
  | CoreAct.undoA _ t _ _ => [t]
  | CoreAct.redoA _ tu _ _ => [tu]

/-- The stroke the action concerns in the given state: the stroke a
creation brings into being, the stroke an undo targets, the stroke the
referenced undo of a redo targets (`none` for a dangling redo). -/
def actStroke (st : DrawingState) : CoreAct → Option String
  | CoreAct.createA _ _ _ _ i _ => some i
  | CoreAct.undoA _ t _ _ => some t
  | CoreAct.redoA _ tu _ _ =>
      match findMatchingUndo st.operations tu with
      | some (Operation.undo t _ _ _) => some t
      | _ => none

/-- The guard deciding whether the action is accepted in the state. -/
def guardOK (st : DrawingState) : CoreAct → Bool
  | CoreAct.createA _ _ _ _ _ _ => true
  | CoreAct.undoA _ t _ _ =>
      (st.strokes.find? (fun s => s.id = t)).isSome && st.isStrokeVisible t
  | CoreAct.redoA _ tu _ _ =>
      (findMatchingUndo st.operations tu).isSome &&
        !(anyRedoTargeting st.operations tu)

/-- The log entry the action appends when accepted. -/
def opOf : CoreAct → Operation
  | CoreAct.createA u _ _ _ i ts => Operation.stroke i ts u
  | CoreAct.undoA u t i ts => Operation.undo t ts u i
  | CoreAct.redoA u tu i ts => Operation.redo tu ts u i

/-- The log entries the action appends to the state's log. -/
def emitted (st : DrawingState) (a : CoreAct) : List Operation :=
  if guardOK st a then [opOf a] else []

/-- The strokes the action appends to the stroke store. -/
def newStrokes : CoreAct → List Stroke
  | CoreAct.createA u t c w i _ => [⟨i, u, t, c, w, [], false⟩]
  | CoreAct.undoA _ _ _ _ => []
  | CoreAct.redoA _ _ _ _ => []

/-! ### Reachability

`Reachable st` holds of the states an actual `DrawingState` instance can
be in: those built from the empty state by the five public mutating
methods, each `uuidv4()` result being fresh. -/

/-- States reachable from `new DrawingState()` by the public mutating
methods, with fresh uuids. -/
inductive Reachable : DrawingState → Prop where
  | empty : Reachable DrawingState.empty
  | create (st : DrawingState) (u : String) (t : Tool) (c : String) (w : Int)
      (i : String) (ts : Int) : Reachable st → i ∉ usedIds st →
      Reachable (createStroke u t c w i ts st).2
  | appendP (st : DrawingState) (sid : String) (pts : List Point) :
      Reachable st → Reachable (appendPoints sid pts st).2
  | completeS (st : DrawingState) (sid : String) :
      Reachable st → Reachable (completeStroke sid st).2
  | undoS (st : DrawingState) (u : String) (s : String) (i : String) (ts : Int) :
      Reachable st → i ∉ usedIds st → Reachable (undoStroke u s i ts st).2
  | redoS (st : DrawingState) (u : String) (tu : String) (i : String) (ts : Int) :
      Reachable st → i ∉ usedIds st → Reachable (redoStroke u tu i ts st).2

/-! ### Growth ordering for the append-only property -/

/-- `st` grows into `st'`: the log of `st` is an unchanged prefix of the
log of `st'`, and every stored stroke survives with its point sequence
extended only. -/
def growsTo (st st' : DrawingState) : Prop :=
  (∃ tail, st'.operations = st.operations ++ tail) ∧
  ∀ s ∈ st.strokes, ∃ s' ∈ st'.strokes,
    s'.id = s.id ∧ ∃ extra, s'.points = s.points ++ extra

/-! ### Concrete states used by witnesses and counterexamples -/

/-- One stroke `s1` drawn by author `a`. -/
def stOne : DrawingState :=
  (createStroke "a" Tool.brush "red" 1 "s1" 0 DrawingState.empty).2

/-- `s1` drawn by `a`, then undone by `a` (undo op `u1`). -/
def stHidden : DrawingState := (undoStroke "a" "s1" "u1" 1 stOne).2

/-- `stHidden` after the interleaving `undoStroke` by `b` (rejected)
then `redoStroke` of `u1` by `c`. -/
def stUndoFirst : DrawingState :=
  (redoStroke "c" "u1" "r1" 3 (undoStroke "b" "s1" "u2" 2 stHidden).2).2

/-- `stHidden` after the opposite interleaving: `redoStroke` of `u1` by
`c` (accepted), then `undoStroke` by `b` (now accepted). -/
def stRedoFirst : DrawingState :=
  (undoStroke "b" "s1" "u2" 2 (redoStroke "c" "u1" "r1" 3 stHidden).2).2

/-- `s1` by `a`, undone (`u1`), redone (`r1`), undone again (`u2`): the
log now carries two undo operations targeting `s1`. -/
def stTwoUndos : DrawingState :=
  (undoStroke "b" "s1" "u2" 4 (redoStroke "a" "u1" "r1" 3 stHidden).2).2

/-- Two strokes `s1` (author `a`, completed) and `s2` (author `b`). -/
def stTwo : DrawingState :=
  (createStroke "b" Tool.eraser "blue" 2 "s2" 2
    (completeStroke "s1" stOne).2).2

/-! ### The visibility loop computes the two counters -/

lemma visStep_eq (allOps : List Operation) (sid : String) (acc : Nat × Nat)
    (op : Operation) :
    visStep allOps sid acc op =
      (acc.1 + (if isUndoTargeting sid op then 1 else 0),
       acc.2 + (if redoResolvesTo allOps sid op then 1 else 0)) := by
  cases op with
  | stroke a b c => simp [visStep, isUndoTargeting, redoResolvesTo]
  | undo t ts u i =>
      by_cases h : t = sid <;>
        simp [visStep, isUndoTargeting, redoResolvesTo, h]
  | redo tu ts u i =>
      cases hf : findMatchingUndo allOps tu with
      | none => simp [visStep, isUndoTargeting, redoResolvesTo, hf]
      | some o =>
          cases o with
          | undo t' ts' u' i' =>
              by_cases h : t' = sid <;>
                simp [visStep, isUndoTargeting, redoResolvesTo, hf, h]
          | stroke a b c => simp [visStep, isUndoTargeting, redoResolvesTo, hf]
          | redo a b c d => simp [visStep, isUndoTargeting, redoResolvesTo, hf]

lemma foldl_visStep (allOps : List Operation) (sid : String) :
    ∀ (l : List Operation) (acc : Nat × Nat),
      l.foldl (visStep allOps sid) acc =
        (acc.1 + l.countP (isUndoTargeting sid),
         acc.2 + l.countP (redoResolvesTo allOps sid)) := by
  intro l
  induction l with
  | nil => intro acc; simp
  | cons op l ih =>
      intro acc
      rw [List.foldl_cons, visStep_eq, ih, List.countP_cons, List.countP_cons]
      apply Prod.ext <;> simp <;> omega

/-- The `isStrokeVisible` loop is `undoCount <= redoCount`, with
`redoCount` resolved through the log's `find`. -/
lemma isStrokeVisible_eq_counts (st : DrawingState) (sid : String) :
    st.isStrokeVisible sid =
      decide (undoCount st.operations sid ≤ redoCount st.operations sid) := by
  unfold isStrokeVisible undoCount redoCount
  rw [foldl_visStep]
  simp

/-! ### How the searches and counters react to appends -/

lemma findMatchingUndo_append (ops l : List Operation) (tu : String) :
    findMatchingUndo (ops ++ l) tu =
      (findMatchingUndo ops tu).or (findMatchingUndo l tu) := by
  unfold findMatchingUndo
  exact List.find?_append

lemma findMatchingUndo_append_stroke (ops : List Operation) (tu i : String)
    (ts : Int) (u : String) :
    findMatchingUndo (ops ++ [Operation.stroke i ts u]) tu =
      findMatchingUndo ops tu := by
  rw [findMatchingUndo_append]
  have h : findMatchingUndo [Operation.stroke i ts u] tu = none := rfl
  rw [h]
  cases findMatchingUndo ops tu <;> rfl

lemma findMatchingUndo_append_redo (ops : List Operation) (tu tu' : String)
    (ts : Int) (u i : String) :
    findMatchingUndo (ops ++ [Operation.redo tu' ts u i]) tu =
      findMatchingUndo ops tu := by
  rw [findMatchingUndo_append]
  have h : findMatchingUndo [Operation.redo tu' ts u i] tu = none := rfl
  rw [h]
  cases findMatchingUndo ops tu <;> rfl

lemma findMatchingUndo_append_undo (ops : List Operation) (tu t : String)
    (ts : Int) (u i : String) (h : i ≠ tu) :
    findMatchingUndo (ops ++ [Operation.undo t ts u i]) tu =
      findMatchingUndo ops tu := by
  rw [findMatchingUndo_append]
  have hone : findMatchingUndo [Operation.undo t ts u i] tu = none := by
    unfold findMatchingUndo
    simp [h]
  rw [hone]
  cases findMatchingUndo ops tu <;> rfl

lemma findMatchingUndo_append_of_some (ops l : List Operation) (tu : String)
    (o : Operation) (h : findMatchingUndo ops tu = some o) :
    findMatchingUndo (ops ++ l) tu = some o := by
  rw [findMatchingUndo_append, h]
  rfl

lemma anyRedoTargeting_append (ops l : List Operation) (tu : String) :
    anyRedoTargeting (ops ++ l) tu =
      (anyRedoTargeting ops tu || anyRedoTargeting l tu) := by
  unfold anyRedoTargeting
  exact List.any_append

lemma undoCount_append (ops l : List Operation) (sid : String) :
    undoCount (ops ++ l) sid = undoCount ops sid + undoCount l sid := by
  unfold undoCount
  exact List.countP_append _ _ _

lemma redoResolvesTo_congr (L L' : List Operation) (sid : String)
    (op : Operation)
    (h : ∀ tu, findMatchingUndo L' tu = findMatchingUndo L tu) :
    redoResolvesTo L' sid op = redoResolvesTo L sid op := by
  cases op with
  | redo tu ts u i => simp only [redoResolvesTo, h tu]
  | stroke a b c => rfl
  | undo a b c d => rfl

lemma redosResolved_mem (ops : List Operation) (h : redosResolved ops = true)
    (tu : String) (ts : Int) (u i : String)
    (hm : Operation.redo tu ts u i ∈ ops) :
    (findMatchingUndo ops tu).isSome := by
  unfold redosResolved at h
  rw [List.all_eq_true] at h
  exact h _ hm

lemma redoCount_append_stroke (ops : List Operation) (sid i : String)
    (ts : Int) (u : String) :
    redoCount (ops ++ [Operation.stroke i ts u]) sid = redoCount ops sid := by
  unfold redoCount
  rw [List.countP_append]
  have h1 : ∀ op ∈ ops,
      redoResolvesTo (ops ++ [Operation.stroke i ts u]) sid op =
        redoResolvesTo ops sid op := by
    intro op _
    exact redoResolvesTo_congr _ _ _ _
      (fun tu => findMatchingUndo_append_stroke ops tu i ts u)
  rw [List.countP_congr (fun x hx => by rw [h1 x hx])]
  have h2 : List.countP
      (redoResolvesTo (ops ++ [Operation.stroke i ts u]) sid)
      [Operation.stroke i ts u] = 0 := by
    simp [redoResolvesTo]
  omega

lemma redoCount_append_redo (ops : List Operation) (sid tu : String)
    (ts : Int) (u i : String) :
    redoCount (ops ++ [Operation.redo tu ts u i]) sid =
      redoCount ops sid +
        (if redoResolvesTo ops sid (Operation.redo tu ts u i) then 1 else 0) := by
  unfold redoCount
  rw [List.countP_append]
  have hfm : ∀ x, findMatchingUndo (ops ++ [Operation.redo tu ts u i]) x =
      findMatchingUndo ops x :=
    fun x => findMatchingUndo_append_redo ops x tu ts u i
  have h1 : ∀ op ∈ ops,
      redoResolvesTo (ops ++ [Operation.redo tu ts u i]) sid op =
        redoResolvesTo ops sid op :=
    fun op _ => redoResolvesTo_congr _ _ _ _ hfm
  rw [List.countP_congr (fun x hx => by rw [h1 x hx])]
  have h2 : List.countP
      (redoResolvesTo (ops ++ [Operation.redo tu ts u i]) sid)
      [Operation.redo tu ts u i] =
      (if redoResolvesTo ops sid (Operation.redo tu ts u i) then 1 else 0) := by
    rw [List.countP_cons, List.countP_nil]
    rw [redoResolvesTo_congr _ _ _ _ hfm]
    omega
  omega

lemma redoCount_append_undo (ops : List Operation) (sid t : String)
    (ts : Int) (u i : String) (h : redosResolved ops = true) :
    redoCount (ops ++ [Operation.undo t ts u i]) sid = redoCount ops sid := by
  unfold redoCount
  rw [List.countP_append]
  have h1 : ∀ op ∈ ops,
      redoResolvesTo (ops ++ [Operation.undo t ts u i]) sid op =
        redoResolvesTo ops sid op := by
    intro op hm
    cases op with
    | redo tu' ts' u' i' =>
        have hs := redosResolved_mem ops h tu' ts' u' i' hm
        cases hf : findMatchingUndo ops tu' with
        | none => rw [hf] at hs; simp at hs
        | some o =>
            simp only [redoResolvesTo,
              findMatchingUndo_append_of_some ops _ tu' o hf, hf]
    | stroke a b c => rfl
    | undo a b c d => rfl
  rw [List.countP_congr (fun x hx => by rw [h1 x hx])]
  have h2 : List.countP
      (redoResolvesTo (ops ++ [Operation.undo t ts u i]) sid)
      [Operation.undo t ts u i] = 0 := by
    simp [redoResolvesTo]
  omega

/-- Visibility of a stroke is untouched by appending a `stroke` entry. -/
lemma isStrokeVisible_append_stroke (st : DrawingState) (sid i : String)
    (ts : Int) (u : String) :
    isStrokeVisible
      ⟨st.strokes, st.operations ++ [Operation.stroke i ts u]⟩ sid =
      isStrokeVisible ⟨st.strokes, st.operations⟩ sid := by
  rw [isStrokeVisible_eq_counts, isStrokeVisible_eq_counts]
  simp only [undoCount_append, redoCount_append_stroke]
  have : undoCount [Operation.stroke i ts u] sid = 0 := rfl
  rw [this, Nat.add_zero]

/-! ### With distinct undo ids, the loop's `find` agrees with the
specification's "the target UndoOp" -/

lemma id_mem_undoIds (ops : List Operation) (t : String) (ts : Int)
    (u i : String) (h : Operation.undo t ts u i ∈ ops) : i ∈ undoIds ops := by
  unfold undoIds
  rw [List.mem_filterMap]
  exact ⟨_, h, rfl⟩

lemma undo_id_unique (ops : List Operation) (h : (undoIds ops).Nodup) :
    ∀ o1 ∈ ops, ∀ o2 ∈ ops, ∀ t1 t2 : String, ∀ ts1 ts2 : Int,
      ∀ a1 a2 i : String,
      o1 = Operation.undo t1 ts1 a1 i → o2 = Operation.undo t2 ts2 a2 i →
      o1 = o2 := by
  induction ops with
  | nil => intro o1 h1; simp at h1
  | cons op rest ih =>
      intro o1 h1 o2 h2 t1 t2 ts1 ts2 a1 a2 i e1 e2
      have hrest : (undoIds rest).Nodup ∧
          (∀ t' : String, ∀ ts' : Int, ∀ a' : String,
            Operation.undo t' ts' a' i ∈ rest → op ≠ Operation.undo t1 ts1 a1 i ∧
              op ≠ Operation.undo t2 ts2 a2 i → True) := by
        exact ⟨by
          cases op with
          | undo t0 ts0 a0 i0 =>
              have : undoIds (Operation.undo t0 ts0 a0 i0 :: rest) =
                  i0 :: undoIds rest := rfl
              rw [this] at h
              exact (List.nodup_cons.mp h).2
          | stroke a b c =>
              have : undoIds (Operation.stroke a b c :: rest) = undoIds rest := rfl
              rw [this] at h
              exact h
          | redo a b c d =>
              have : undoIds (Operation.redo a b c d :: rest) = undoIds rest := rfl
              rw [this] at h
              exact h, fun _ _ _ _ _ => trivial⟩
      rcases List.mem_cons.mp h1 with h1' | h1' <;>
        rcases List.mem_cons.mp h2 with h2' | h2'
      · rw [h1', ← h2']
      · exfalso
        subst e1
        rw [← h1'] at h
        have hmem : i ∈ undoIds rest := by
          subst e2
          exact id_mem_undoIds rest t2 ts2 a2 i h2'
        have : undoIds (Operation.undo t1 ts1 a1 i :: rest) =
            i :: undoIds rest := rfl
        rw [this] at h
        exact (List.nodup_cons.mp h).1 hmem
      · exfalso
        subst e2
        rw [← h2'] at h
        have hmem : i ∈ undoIds rest := by
          subst e1
          exact id_mem_undoIds rest t1 ts1 a1 i h1'
        have : undoIds (Operation.undo t2 ts2 a2 i :: rest) =
            i :: undoIds rest := rfl
        rw [this] at h
        exact (List.nodup_cons.mp h).1 hmem
      · exact ih hrest.1 o1 h1' o2 h2' t1 t2 ts1 ts2 a1 a2 i e1 e2

lemma redoCount_eq_spec (ops : List Operation) (sid : String)
    (h : (undoIds ops).Nodup) :
    redoCount ops sid = redoCountSpec ops sid := by
  unfold redoCount redoCountSpec
  apply List.countP_congr
  intro op hm
  cases op with
  | stroke a b c => simp [redoResolvesTo]
  | undo a b c d => simp [redoResolvesTo]
  | redo tu ts u i =>
      cases hf : findMatchingUndo ops tu with
      | none =>
          have hnone : ∀ x ∈ ops,
              ¬((fun o => match o with
                  | Operation.undo _ _ _ j => decide (j = tu)
                  | _ => false) x = true) := by
            have := hf
            unfold findMatchingUndo at this
            exact fun x hx => by
              have := List.find?_eq_none.mp this x hx
              exact this
          constructor
          · intro hl
            simp only [redoResolvesTo, hf] at hl
            simp at hl
          · intro hr
            rw [List.any_eq_true] at hr
            obtain ⟨u', hu', hp⟩ := hr
            cases u' with
            | undo t' ts' a' i' =>
                simp only [Bool.and_eq_true, decide_eq_true_eq] at hp
                exfalso
                apply hnone _ hu'
                simp [hp.1]
            | stroke a b c => simp at hp
            | redo a b c d => simp at hp
      | some o =>
          have hpred := List.find?_some (by
            unfold findMatchingUndo at hf; exact hf)
          have hmem : o ∈ ops := List.mem_of_find?_eq_some (by
            unfold findMatchingUndo at hf; exact hf)
          cases o with
          | undo t0 ts0 a0 i0 =>
              have hid : i0 = tu := by
                simpa using hpred
              subst hid
              by_cases ht : t0 = sid
              · constructor
                · intro _
                  rw [List.any_eq_true]
                  exact ⟨Operation.undo t0 ts0 a0 i0, hmem, by simp [ht]⟩
                · intro _
                  simp [redoResolvesTo, hf, ht]
              · constructor
                · intro hl
                  simp only [redoResolvesTo, hf] at hl
                  exact absurd (by simpa using hl) ht
                · intro hr
                  rw [List.any_eq_true] at hr
                  obtain ⟨u', hu', hp⟩ := hr
                  cases u' with
                  | undo t' ts' a' i' =>
                      simp only [Bool.and_eq_true, decide_eq_true_eq] at hp
                      have heq := undo_id_unique ops h
                        (Operation.undo t' ts' a' i') hu'
                        (Operation.undo t0 ts0 a0 i0) hmem
                        t' t0 ts' ts0 a' a0 i0
                        (by rw [hp.1]) rfl
                      have : t' = t0 := by
                        injection heq
                      exact absurd (this ▸ hp.2) ht
                  | stroke a b c => simp at hp
                  | redo a b c d => simp at hp
          | stroke a b c => simp at hpred
          | redo a b c d => simp at hpred

/-! ### Simple structural lemmas about the five operations -/

lemma growsTo_refl (st : DrawingState) : growsTo st st :=
  ⟨⟨[], by simp⟩, fun s hs => ⟨s, hs, rfl, [], by simp⟩⟩

lemma appendPoints_rejected (st : DrawingState) (sid : String)
    (pts : List Point) (h : (appendPoints sid pts st).1 = false) :
    (appendPoints sid pts st).2 = st := by
  unfold appendPoints at *
  cases hf : st.strokes.find? (fun s => s.id = sid) with
  | none => rfl
  | some k => rw [hf] at h; simp at h

lemma completeStroke_rejected (st : DrawingState) (sid : String)
    (h : (completeStroke sid st).1 = false) :
    (completeStroke sid st).2 = st := by
  unfold completeStroke at *
  cases hf : st.strokes.find? (fun s => s.id = sid) with
  | none => rfl
  | some k => rw [hf] at h; simp at h

lemma undoStroke_rejected (st : DrawingState) (u s i : String) (ts : Int)
    (h : (undoStroke u s i ts st).1 = none) :
    (undoStroke u s i ts st).2 = st := by
  unfold undoStroke at *
  cases hf : st.strokes.find? (fun s' => s'.id = s) with
  | none => rfl
  | some k =>
      rw [hf] at h
      cases hv : st.isStrokeVisible s with
      | false => simp [hv]
      | true => rw [hv] at h; simp at h

lemma redoStroke_rejected (st : DrawingState) (u tu i : String) (ts : Int)
    (h : (redoStroke u tu i ts st).1 = false) :
    (redoStroke u tu i ts st).2 = st := by
  unfold redoStroke at *
  cases hf : findMatchingUndo st.operations tu with
  | none => rfl
  | some k =>
      rw [hf] at h
      cases ha : anyRedoTargeting st.operations tu with
      | true => simp [ha]
      | false => rw [ha] at h; simp at h

/-- `undoStroke` as a single guarded equation. -/
lemma undoStroke_eq (st : DrawingState) (u s i : String) (ts : Int) :
    undoStroke u s i ts st =
      if (st.strokes.find? (fun s' => s'.id = s)).isSome
          && st.isStrokeVisible s
      then (some i,
        ⟨st.strokes, st.operations ++ [Operation.undo s ts u i]⟩)
      else (none, st) := by
  unfold undoStroke
  cases hf : st.strokes.find? (fun s' => s'.id = s) with
  | none => simp
  | some k => cases hv : st.isStrokeVisible s <;> simp [hv]

/-- `redoStroke` as a single guarded equation. -/
lemma redoStroke_eq (st : DrawingState) (u tu i : String) (ts : Int) :
    redoStroke u tu i ts st =
      if (findMatchingUndo st.operations tu).isSome
          && !(anyRedoTargeting st.operations tu)
      then (true,
        ⟨st.strokes, st.operations ++ [Operation.redo tu ts u i]⟩)
      else (false, st) := by
  unfold redoStroke
  cases hf : findMatchingUndo st.operations tu with
  | none => simp
  | some k => cases ha : anyRedoTargeting st.operations tu <;> simp [ha]

/-! ### Claim theorems: C1, C3, C4, C5, C7, C10 -/

/-- C1.  For every log state and every stroke, `isStrokeVisible` returns
`true` exactly when the number of undo operations targeting the stroke
is at most the number of redo operations whose target undo operation
targets that stroke; undo ids are pairwise distinct (as `uuidv4`
guarantees). -/
theorem claim_C1_visibility_is_count_comparison (st : DrawingState)
    (sid : String) (h : (undoIds st.operations).Nodup) :
    st.isStrokeVisible sid = true ↔
      undoCount st.operations sid ≤ redoCountSpec st.operations sid := by
  rw [isStrokeVisible_eq_counts, ← redoCount_eq_spec _ _ h]
  simp

/-- Witness for C1 at a concrete state with one undone stroke. -/
theorem claim_C1_witness :
    stHidden.isStrokeVisible "s1" = true ↔
      undoCount stHidden.operations "s1" ≤
        redoCountSpec stHidden.operations "s1" :=
  claim_C1_visibility_is_count_comparison stHidden "s1" (by decide)

/-- C3.  `requestUndo` is rejected exactly when the target stroke does
not exist or is currently invisible; on success it appends exactly the
one fresh undo operation, returns its id, and leaves the store alone;
acceptance never depends on the caller's author id. -/
theorem claim_C3_requestUndo_contract (st : DrawingState)
    (u u' s i : String) (ts : Int) :
    ((undoStroke u s i ts st).1 = none ↔
      st.getStroke s = none ∨ st.isStrokeVisible s = false)
    ∧ (∀ r, (undoStroke u s i ts st).1 = some r →
        r = i ∧
        (undoStroke u s i ts st).2.operations =
          st.operations ++ [Operation.undo s ts u i] ∧
        (undoStroke u s i ts st).2.strokes = st.strokes)
    ∧ (undoStroke u s i ts st).1.isSome = (undoStroke u' s i ts st).1.isSome := by
  unfold undoStroke getStroke
  cases hf : st.strokes.find? (fun s' => s'.id = s) with
  | none => simp
  | some k =>
      cases hv : st.isStrokeVisible s with
      | false => simp [hv]
      | true => simp [hv]

/-- Witness for C3: rejection of an undo of an already-hidden stroke,
and acceptance on a fresh stroke. -/
theorem claim_C3_witness :
    (undoStroke "b" "s1" "u9" 7 stHidden).1 = none ∧
      (undoStroke "b" "s1" "u9" 7 stOne).1 = some "u9" := by
  constructor
  · exact (claim_C3_requestUndo_contract stHidden "b" "b" "s1" "u9" 7).1.mpr
      (Or.inr (by decide))
  · have h := (claim_C3_requestUndo_contract stOne "b" "b" "s1" "u9" 7).1
    cases hr : (undoStroke "b" "s1" "u9" 7 stOne).1 with
    | none =>
        exfalso
        rcases h.mp hr with hc | hc
        · exact absurd hc (by decide)
        · exact absurd hc (by decide)
    | some r =>
        have := ((claim_C3_requestUndo_contract stOne "b" "b" "s1" "u9" 7).2.1
          r hr).1
        rw [this]

/-- C4.  `requestRedo` is rejected exactly when the target undo
operation is absent from the log or some redo already references it; on
success it appends exactly the one fresh redo operation; and after a
success, a second `requestRedo` against the same undo id is always
rejected and leaves the state (hence every stroke's visibility)
unchanged. -/
theorem claim_C4_requestRedo_contract (st : DrawingState)
    (u u' tu i i' : String) (ts ts' : Int) :
    ((redoStroke u tu i ts st).1 = false ↔
      findMatchingUndo st.operations tu = none ∨
        anyRedoTargeting st.operations tu = true)
    ∧ ((redoStroke u tu i ts st).1 = true →
        (redoStroke u tu i ts st).2.operations =
          st.operations ++ [Operation.redo tu ts u i] ∧
        (redoStroke u tu i ts st).2.strokes = st.strokes)
    ∧ ((redoStroke u tu i ts st).1 = true →
        (redoStroke u' tu i' ts' (redoStroke u tu i ts st).2).1 = false ∧
        (redoStroke u' tu i' ts' (redoStroke u tu i ts st).2).2 =
          (redoStroke u tu i ts st).2) := by
  by_cases hg : (findMatchingUndo st.operations tu).isSome
      && !(anyRedoTargeting st.operations tu)
  · have hfmu : (findMatchingUndo st.operations tu).isSome = true :=
      (Bool.and_eq_true _ _ ▸ hg).1
    have hany : anyRedoTargeting st.operations tu = false := by
      have := (Bool.and_eq_true _ _ ▸ hg).2
      simpa using this
    refine ⟨?_, ?_, ?_⟩
    · rw [redoStroke_eq, if_pos hg]
      constructor
      · intro hfalse
        simp at hfalse
      · intro hcases
        rcases hcases with hc | hc
        · rw [hc] at hfmu; simp at hfmu
        · rw [hc] at hany; simp at hany
    · intro _
      rw [redoStroke_eq, if_pos hg]
      exact ⟨rfl, rfl⟩
    · intro _
      have hst' : (redoStroke u tu i ts st).2 =
          ⟨st.strokes, st.operations ++ [Operation.redo tu ts u i]⟩ := by
        rw [redoStroke_eq, if_pos hg]
      have hany' : anyRedoTargeting (redoStroke u tu i ts st).2.operations tu
          = true := by
        rw [hst']
        rw [anyRedoTargeting_append]
        have : anyRedoTargeting [Operation.redo tu ts u i] tu = true := by
          unfold anyRedoTargeting
          simp
        rw [this, Bool.or_true]
      have hg2 : ((findMatchingUndo (redoStroke u tu i ts st).2.operations
          tu).isSome && !(anyRedoTargeting
            (redoStroke u tu i ts st).2.operations tu)) = false := by
        rw [hany']
        simp
      rw [redoStroke_eq, if_neg (by rw [hg2]; simp)]
      exact ⟨rfl, rfl⟩
  · refine ⟨?_, ?_, ?_⟩
    · rw [redoStroke_eq, if_neg hg]
      constructor
      · intro _
        rcases hb : findMatchingUndo st.operations tu with _ | k
        · exact Or.inl rfl
        · right
          cases ha : anyRedoTargeting st.operations tu with
          | true => rfl
          | false =>
              exfalso
              apply hg
              rw [hb, ha]
              rfl
      · intro _
        rfl
    · intro hsucc
      rw [redoStroke_eq, if_neg hg] at hsucc
      simp at hsucc
    · intro hsucc
      rw [redoStroke_eq, if_neg hg] at hsucc
      simp at hsucc

/-- Witness for C4: a successful redo followed by a rejected duplicate
redo of the same undo id. -/
theorem claim_C4_witness :
    (redoStroke "c" "u1" "r9" 9 stHidden).1 = true ∧
      (redoStroke "d" "u1" "r8" 10 (redoStroke "c" "u1" "r9" 9 stHidden).2).1
        = false := by
  have hs : (redoStroke "c" "u1" "r9" 9 stHidden).1 = true := by decide
  exact ⟨hs,
    ((claim_C4_requestRedo_contract stHidden "c" "d" "u1" "r9" "r8" 9 10).2.2
      hs).1⟩

/-- C5.  Every rejection path of `appendPoints`, `completeStroke`,
`undoStroke` and `redoStroke` leaves the state (operation log and
stroke store) exactly as it was. -/
theorem claim_C5_rejection_paths_pure (st : DrawingState) (sid : String)
    (pts : List Point) (u s i tu r : String) (ts rts : Int) :
    ((appendPoints sid pts st).1 = false → (appendPoints sid pts st).2 = st)
    ∧ ((completeStroke sid st).1 = false → (completeStroke sid st).2 = st)
    ∧ ((undoStroke u s i ts st).1 = none → (undoStroke u s i ts st).2 = st)
    ∧ ((redoStroke u tu r rts st).1 = false → (redoStroke u tu r rts st).2 = st) :=
  ⟨appendPoints_rejected st sid pts, completeStroke_rejected st sid,
   undoStroke_rejected st u s i ts, redoStroke_rejected st u tu r rts⟩

/-- Witness for C5: the four rejections at concrete states leave the
state untouched. -/
theorem claim_C5_witness :
    (appendPoints "zz" [⟨0, 0, 0⟩] stOne).2 = stOne ∧
      (completeStroke "zz" stOne).2 = stOne ∧
      (undoStroke "b" "s1" "u9" 7 stHidden).2 = stHidden ∧
      (redoStroke "b" "u7" "r9" 7 stOne).2 = stOne := by
  have h1 := (claim_C5_rejection_paths_pure stOne "zz" [⟨0, 0, 0⟩]
    "b" "s1" "u9" "u7" "r9" 7 7).1 (by decide)
  have h2 := (claim_C5_rejection_paths_pure stOne "zz" [⟨0, 0, 0⟩]
    "b" "s1" "u9" "u7" "r9" 7 7).2.1 (by decide)
  have h3 := (claim_C5_rejection_paths_pure stHidden "zz" [⟨0, 0, 0⟩]
    "b" "s1" "u9" "u7" "r9" 7 7).2.2.1 (by decide)
  have h4 := (claim_C5_rejection_paths_pure stOne "zz" [⟨0, 0, 0⟩]
    "b" "s1" "u9" "u7" "r9" 7 7).2.2.2 (by decide)
  exact ⟨h1, h2, h3, h4⟩

/-- C7.  Each of the five mutating operations only grows the state: the
log is extended by a (possibly empty) suffix with every existing entry
untouched, and every stored stroke survives with its id and with its
point sequence extended only. -/
theorem claim_C7_append_only (st : DrawingState) (u : String) (t : Tool)
    (c : String) (w : Int) (i : String) (ts : Int) (sid : String)
    (pts : List Point) (us ss ui : String) (uts : Int) (ru rtu rid : String)
    (rts : Int) :
    growsTo st (createStroke u t c w i ts st).2 ∧
    growsTo st (appendPoints sid pts st).2 ∧
    growsTo st (completeStroke sid st).2 ∧
    growsTo st (undoStroke us ss ui uts st).2 ∧
    growsTo st (redoStroke ru rtu rid rts st).2 := by
  refine ⟨?_, ?_, ?_, ?_, ?_⟩
  · exact ⟨⟨[Operation.stroke i ts u], rfl⟩,
      fun s hs => ⟨s, List.mem_append_left _ hs, rfl, [], by simp⟩⟩
  · unfold appendPoints
    cases hf : st.strokes.find? (fun s => s.id = sid) with
    | none => exact growsTo_refl st
    | some k =>
        refine ⟨⟨[], by simp⟩, fun s hs => ?_⟩
        by_cases hid : s.id = sid
        · exact ⟨{ s with points := s.points ++ pts }, by
            have := List.mem_map_of_mem (fun s =>
              if s.id = sid then { s with points := s.points ++ pts } else s) hs
            simpa [hid] using this, rfl, pts, rfl⟩
        · exact ⟨s, by
            have := List.mem_map_of_mem (fun s =>
              if s.id = sid then { s with points := s.points ++ pts } else s) hs
            simpa [hid] using this, rfl, [], by simp⟩
  · unfold completeStroke
    cases hf : st.strokes.find? (fun s => s.id = sid) with
    | none => exact growsTo_refl st
    | some k =>
        refine ⟨⟨[], by simp⟩, fun s hs => ?_⟩
        by_cases hid : s.id = sid
        · exact ⟨{ s with complete := true }, by
            have := List.mem_map_of_mem (fun s =>
              if s.id = sid then { s with complete := true } else s) hs
            simpa [hid] using this, rfl, [], by simp⟩
        · exact ⟨s, by
            have := List.mem_map_of_mem (fun s =>
              if s.id = sid then { s with complete := true } else s) hs
            simpa [hid] using this, rfl, [], by simp⟩
  · unfold undoStroke
    cases hf : st.strokes.find? (fun s' => s'.id = ss) with
    | none => exact growsTo_refl st
    | some k =>
        cases hv : st.isStrokeVisible ss with
        | false => exact growsTo_refl st
        | true =>
            exact ⟨⟨[Operation.undo ss uts us ui], by simp⟩,
              fun s hs => ⟨s, hs, rfl, [], by simp⟩⟩
  · unfold redoStroke
    cases hf : findMatchingUndo st.operations rtu with
    | none => exact growsTo_refl st
    | some k =>
        cases ha : anyRedoTargeting st.operations rtu with
        | true => exact growsTo_refl st
        | false =>
            exact ⟨⟨[Operation.redo rtu rts ru rid], by simp⟩,
              fun s hs => ⟨s, hs, rfl, [], by simp⟩⟩

/-- Witness for C7 at a concrete state. -/
theorem claim_C7_witness : growsTo stOne (completeStroke "s1" stOne).2 :=
  (claim_C7_append_only stOne "b" Tool.brush "x" 1 "s9" 9 "s1" []
    "b" "s1" "u9" 9 "b" "u9" "r9" 9).2.2.1

/-- C10.  Marking a stroke complete does not freeze it: `appendPoints`
on a completed stroke still succeeds and appends the points. -/
theorem claim_C10_append_after_complete (st : DrawingState) (sid : String)
    (pts : List Point) (s : Stroke) (h1 : st.getStroke sid = some s)
    (h2 : s.complete = true) (h3 : pts ≠ []) :
    (appendPoints sid pts st).1 = true ∧
    (appendPoints sid pts st).2.getStroke sid =
      some { s with points := s.points ++ pts } := by
  unfold getStroke at h1
  have hid : s.id = sid := by
    have := List.find?_some h1
    simpa using this
  unfold appendPoints getStroke
  rw [h1]
  refine ⟨rfl, ?_⟩
  have hcomp : (fun s' : Stroke => decide (s'.id = sid)) ∘
      (fun s' : Stroke =>
        if s'.id = sid then { s' with points := s'.points ++ pts } else s') =
      fun s' : Stroke => decide (s'.id = sid) := by
    funext s'
    by_cases h : s'.id = sid <;> simp [h]
  rw [List.find?_map, hcomp, h1]
  simp [hid]

/-- Witness for C10: appending to the completed stroke of `stTwo`. -/
theorem claim_C10_witness :
    (appendPoints "s1" [⟨1, 2, 3⟩] stTwo).1 = true ∧
    (appendPoints "s1" [⟨1, 2, 3⟩] stTwo).2.getStroke "s1" =
      some ⟨"s1", "a", Tool.brush, "red", 1, [⟨1, 2, 3⟩], true⟩ := by
  have h := claim_C10_append_after_complete stTwo "s1" [⟨1, 2, 3⟩]
    ⟨"s1", "a", Tool.brush, "red", 1, [], true⟩ (by decide) rfl (by decide)
  exact ⟨h.1, h.2⟩

/-! ### The comparator sort is the identity on creation order -/

lemma insertByKey_of_lt (key : Stroke → Nat) (x : Stroke) (l : List Stroke)
    (h : ∀ y ∈ l, key x < key y) : insertByKey key x l = x :: l := by
  cases l with
  | nil => rfl
  | cons y ys =>
      unfold insertByKey
      rw [if_pos (h y (List.mem_cons_self y ys))]

lemma sortByKey_of_pairwise (key : Stroke → Nat) (l : List Stroke)
    (h : List.Pairwise (fun a b => key a < key b) l) :
    sortByKey key l = l := by
  induction l with
  | nil => rfl
  | cons x xs ih =>
      have hx : ∀ y ∈ xs, key x < key y := (List.pairwise_cons.mp h).1
      have hxs := (List.pairwise_cons.mp h).2
      unfold sortByKey
      rw [ih hxs, insertByKey_of_lt key x xs hx]

lemma strokes_pairwise_indexOf (l : List Stroke) (order : List String)
    (h : l.map (fun s => s.id) = order) (hnd : order.Nodup) :
    List.Pairwise
      (fun a b => order.indexOf a.id < order.indexOf b.id) l := by
  rw [List.pairwise_iff_getElem]
  intro a b ha hb hab
  have hlen : l.length = order.length := by
    rw [← h, List.length_map]
  have ha2 : a < order.length := by omega
  have hb2 : b < order.length := by omega
  have hma : a < (l.map (fun s => s.id)).length := by
    rw [List.length_map]
    exact ha
  have hmb : b < (l.map (fun s => s.id)).length := by
    rw [List.length_map]
    exact hb
  have hida : l[a].id = order[a] := by
    have hm : (l.map (fun s => s.id))[a] = l[a].id := List.getElem_map _
    rw [← hm]
    exact List.getElem_of_eq h _
  have hidb : l[b].id = order[b] := by
    have hm : (l.map (fun s => s.id))[b] = l[b].id := List.getElem_map _
    rw [← hm]
    exact List.getElem_of_eq h _
  rw [hida, hidb, List.indexOf_getElem hnd a ha2,
    List.indexOf_getElem hnd b hb2]
  exact hab

/-- On a well-formed state the comparator sort inside
`getVisibleStrokes` is the identity: the store already lists strokes in
log order. -/
lemma getVisibleStrokes_eq_filter (st : DrawingState) (h : WF st) :
    st.getVisibleStrokes =
      st.strokes.filter (fun s => st.isStrokeVisible s.id) := by
  obtain ⟨hids, hnd, -, -⟩ := h
  unfold getVisibleStrokes
  apply sortByKey_of_pairwise
  apply List.Pairwise.filter
  exact strokes_pairwise_indexOf st.strokes (strokeOrder st.operations)
    hids hnd

/-- C6.  On every well-formed state, `getVisibleStrokes` returns exactly
the visible strokes of the store, and their ids are the log's stroke
creation order filtered by visibility, so the relative order never
depends on which strokes are hidden. -/
theorem claim_C6_visible_strokes_in_creation_order (st : DrawingState)
    (h : WF st) :
    st.getVisibleStrokes =
      st.strokes.filter (fun s => st.isStrokeVisible s.id) ∧
    st.getVisibleStrokes.map (fun s => s.id) =
      (strokeOrder st.operations).filter (fun i => st.isStrokeVisible i) := by
  have h1 := getVisibleStrokes_eq_filter st h
  refine ⟨h1, ?_⟩
  rw [h1]
  obtain ⟨hids, -, -, -⟩ := h
  rw [← hids, List.filter_map]
  rfl

/-- Witness for C6 at a two-stroke state with one stroke undone. -/
theorem claim_C6_witness :
    (undoStroke "a" "s1" "u5" 5 stTwo).2.getVisibleStrokes =
      (undoStroke "a" "s1" "u5" 5 stTwo).2.strokes.filter
        (fun s => (undoStroke "a" "s1" "u5" 5 stTwo).2.isStrokeVisible s.id) ∧
    (undoStroke "a" "s1" "u5" 5 stTwo).2.getVisibleStrokes.map
        (fun s => s.id) =
      (strokeOrder (undoStroke "a" "s1" "u5" 5 stTwo).2.operations).filter
        (fun i => (undoStroke "a" "s1" "u5" 5 stTwo).2.isStrokeVisible i) :=
  claim_C6_visible_strokes_in_creation_order
    (undoStroke "a" "s1" "u5" 5 stTwo).2
    ⟨by decide, by decide, by decide, by decide⟩

/-- C9.  On every well-formed state `getLastVisibleStrokeByUser` is the
id of the last (in creation order) visible, completed stroke of the
author, and it is `none` exactly when the author has no such stroke. -/
theorem claim_C9_last_visible_stroke_of_author (st : DrawingState)
    (u : String) (h : WF st) :
    st.getLastVisibleStrokeByUser u =
      ((st.strokes.filter (fun s =>
          (s.userId = u && s.complete) && st.isStrokeVisible s.id)).getLast?).map
        (fun s => s.id) ∧
    (st.getLastVisibleStrokeByUser u = none ↔
      st.strokes.filter (fun s =>
        (s.userId = u && s.complete) && st.isStrokeVisible s.id) = []) := by
  have h1 := getVisibleStrokes_eq_filter st h
  have hmain : st.getLastVisibleStrokeByUser u =
      ((st.strokes.filter (fun s =>
          (s.userId = u && s.complete) && st.isStrokeVisible s.id)).getLast?).map
        (fun s => s.id) := by
    unfold getLastVisibleStrokeByUser
    rw [h1, List.filter_filter]
  refine ⟨hmain, ?_⟩
  rw [hmain]
  rw [Option.map_eq_none']
  rw [List.getLast?_eq_none_iff]

/-- Witness for C9: on `stTwo`, author `a` has the completed visible
stroke `s1` and author `b` has none completed. -/
theorem claim_C9_witness :
    stTwo.getLastVisibleStrokeByUser "a" =
      ((stTwo.strokes.filter (fun s =>
          (s.userId = "a" && s.complete) &&
            stTwo.isStrokeVisible s.id)).getLast?).map (fun s => s.id) :=
  (claim_C9_last_visible_stroke_of_author stTwo "a"
    ⟨by decide, by decide, by decide, by decide⟩).1

/-! ### The reachability invariant behind C8: at most one unpaired undo
per stroke ever exists -/

lemma createStroke_ops (u : String) (t : Tool) (c : String) (w : Int)
    (i : String) (ts : Int) (st : DrawingState) :
    (createStroke u t c w i ts st).2.operations =
      st.operations ++ [Operation.stroke i ts u] := rfl

lemma appendPoints_ops (sid : String) (pts : List Point) (st : DrawingState) :
    (appendPoints sid pts st).2.operations = st.operations := by
  unfold appendPoints
  cases st.strokes.find? (fun s => s.id = sid) <;> rfl

lemma completeStroke_ops (sid : String) (st : DrawingState) :
    (completeStroke sid st).2.operations = st.operations := by
  unfold completeStroke
  cases st.strokes.find? (fun s => s.id = sid) <;> rfl

lemma redosResolved_append (ops : List Operation) (x : Operation)
    (h : redosResolved ops = true)
    (hx : (match x with
      | Operation.redo tu _ _ _ => (findMatchingUndo ops tu).isSome
      | _ => true) = true) :
    redosResolved (ops ++ [x]) = true := by
  unfold redosResolved at h ⊢
  rw [List.all_eq_true] at h ⊢
  intro op hm
  rcases List.mem_append.mp hm with hmem | hmem
  · cases op with
    | redo tu' ts' u' i' =>
        have hs := h _ hmem
        simp only at hs
        cases hf : findMatchingUndo ops tu' with
        | none => rw [hf] at hs; simp at hs
        | some o =>
            simp only
            rw [findMatchingUndo_append_of_some ops [x] tu' o hf]
            rfl
    | stroke a b c => rfl
    | undo a b c d => rfl
  · have hox : op = x := by simpa using hmem
    cases x with
    | redo tu' ts' u' i' =>
        subst hox
        simp only at hx ⊢
        cases hf : findMatchingUndo ops tu' with
        | none => rw [hf] at hx; simp at hx
        | some o =>
            rw [findMatchingUndo_append_of_some ops
              [Operation.redo tu' ts' u' i'] tu' o hf]
            rfl
    | stroke a b c => subst hox; rfl
    | undo a b c d => subst hox; rfl

lemma undoCount_single_undo (s : String) (ts : Int) (u i sid : String) :
    undoCount [Operation.undo s ts u i] sid = if s = sid then 1 else 0 := by
  unfold undoCount isUndoTargeting
  by_cases h : s = sid <;> simp [h]

/-- The main invariant: every reachable state has all redo targets
resolved and, for every stroke, at most one unpaired undo
(`undoCount <= redoCount + 1`). -/
lemma reachable_inv (st : DrawingState) (h : Reachable st) :
    redosResolved st.operations = true ∧
    ∀ sid, undoCount st.operations sid ≤ redoCount st.operations sid + 1 := by
  induction h with
  | empty =>
      refine ⟨rfl, fun sid => ?_⟩
      have he : DrawingState.empty.operations = [] := rfl
      rw [he]
      simp [undoCount, redoCount]
  | create st' u t c w i ts hr hfresh ih =>
      rw [createStroke_ops]
      refine ⟨redosResolved_append _ _ ih.1 rfl, fun sid => ?_⟩
      rw [undoCount_append, redoCount_append_stroke]
      have h0 : undoCount [Operation.stroke i ts u] sid = 0 := rfl
      rw [h0, Nat.add_zero]
      exact ih.2 sid
  | appendP st' sid' pts hr ih => rw [appendPoints_ops]; exact ih
  | completeS st' sid' hr ih => rw [completeStroke_ops]; exact ih
  | undoS st' u s i ts hr hfresh ih =>
      rw [undoStroke_eq]
      by_cases hg : (st'.strokes.find? (fun s' => s'.id = s)).isSome
          && st'.isStrokeVisible s
      · rw [if_pos hg]
        refine ⟨redosResolved_append _ _ ih.1 rfl, fun sid => ?_⟩
        have hvis : st'.isStrokeVisible s = true :=
          (Bool.and_eq_true _ _ ▸ hg).2
        rw [isStrokeVisible_eq_counts] at hvis
        have hle : undoCount st'.operations s ≤ redoCount st'.operations s :=
          of_decide_eq_true hvis
        simp only
        rw [undoCount_append, redoCount_append_undo _ _ _ _ _ _ ih.1,
          undoCount_single_undo]
        by_cases hsid : s = sid
        · subst hsid
          rw [if_pos rfl]
          omega
        · rw [if_neg hsid, Nat.add_zero]
          exact ih.2 sid
      · rw [if_neg hg]
        exact ih
  | redoS st' u tu i ts hr hfresh ih =>
      rw [redoStroke_eq]
      by_cases hg : (findMatchingUndo st'.operations tu).isSome
          && !(anyRedoTargeting st'.operations tu)
      · rw [if_pos hg]
        have hfmu : (findMatchingUndo st'.operations tu).isSome = true :=
          (Bool.and_eq_true _ _ ▸ hg).1
        refine ⟨redosResolved_append _ _ ih.1 hfmu, fun sid => ?_⟩
        simp only
        rw [undoCount_append, redoCount_append_redo]
        have h0 : undoCount [Operation.redo tu ts u i] sid = 0 := rfl
        rw [h0, Nat.add_zero]
        have := ih.2 sid
        by_cases hres : redoResolvesTo st'.operations sid
            (Operation.redo tu ts u i)
        · rw [if_pos hres]; omega
        · rw [if_neg hres]; omega
      · rw [if_neg hg]
        exact ih

/-- The state `stTwoUndos` really arises from a run of the class. -/
lemma reachable_stTwoUndos : Reachable stTwoUndos := by
  have h0 : Reachable DrawingState.empty := Reachable.empty
  have h1 : Reachable stOne := by
    unfold stOne
    exact Reachable.create DrawingState.empty "a" Tool.brush "red" 1 "s1" 0 h0
      (by decide)
  have h2 : Reachable stHidden := by
    unfold stHidden
    exact Reachable.undoS stOne "a" "s1" "u1" 1 h1 (by decide)
  have h3 : Reachable (redoStroke "a" "u1" "r1" 3 stHidden).2 :=
    Reachable.redoS stHidden "a" "u1" "r1" 3 h2 (by decide)
  unfold stTwoUndos
  exact Reachable.undoS (redoStroke "a" "u1" "r1" 3 stHidden).2
    "b" "s1" "u2" 4 h3 (by decide)

/-- C8 counterexample.  The scenario the claim builds on — two authors
both undo the same stroke before any redo — is rejected by the code: at
`stHidden` (stroke `s1` undone once by `a`), the second undo request by
`b` returns Rejected and changes nothing. -/
theorem claim_C8_counterexample :
    (undoStroke "b" "s1" "u2" 2 stHidden).1 = none ∧
    (undoStroke "b" "s1" "u2" 2 stHidden).2 = stHidden := by decide

/-- C8 amended.  Two undo operations against the same stroke can
accumulate in the log (via undo, redo, undo: state `stTwoUndos`), but in
every reachable state at most one of them is unpaired — `undoCount` is
at most `redoCount + 1` for every stroke — so a single redo always
suffices to restore visibility, and two simultaneous pending undos of
one stroke never occur. -/
theorem claim_C8_amended :
    (Reachable stTwoUndos ∧
      undoCount stTwoUndos.operations "s1" = 2 ∧
      redoCount stTwoUndos.operations "s1" = 1) ∧
    (∀ st : DrawingState, Reachable st → ∀ sid,
      undoCount st.operations sid ≤ redoCount st.operations sid + 1) :=
  ⟨⟨reachable_stTwoUndos, by decide, by decide⟩,
   fun st h sid => (reachable_inv st h).2 sid⟩

/-- Witness for C8 amended: the bound instantiated at `stTwoUndos`. -/
theorem claim_C8_witness :
    undoCount stTwoUndos.operations "s1" ≤
      redoCount stTwoUndos.operations "s1" + 1 :=
  claim_C8_amended.2 stTwoUndos reachable_stTwoUndos "s1"

/-! ### Commutation machinery for C2 -/

/-- Every core action decomposes into appending `newStrokes` to the
store and `emitted` to the log. -/
lemma applyCore_eq (st : DrawingState) (a : CoreAct) :
    applyCore st a =
      ⟨st.strokes ++ newStrokes a, st.operations ++ emitted st a⟩ := by
  cases a with
  | createA u t c w i ts =>
      have hg : guardOK st (CoreAct.createA u t c w i ts) = true := rfl
      simp only [applyCore, emitted]
      rw [hg]
      rfl
  | undoA u s i ts =>
      simp only [applyCore, emitted]
      rw [undoStroke_eq]
      by_cases hg : (st.strokes.find? (fun s' => s'.id = s)).isSome
          && st.isStrokeVisible s
      · have hg' : guardOK st (CoreAct.undoA u s i ts) = true := hg
        rw [if_pos hg, hg']
        simp [newStrokes, opOf]
      · have hg' : guardOK st (CoreAct.undoA u s i ts) = false := by
          rw [← Bool.not_eq_true]
          exact hg
        rw [if_neg hg, hg']
        simp [newStrokes]
  | redoA u tu i ts =>
      simp only [applyCore, emitted]
      rw [redoStroke_eq]
      by_cases hg : (findMatchingUndo st.operations tu).isSome
          && !(anyRedoTargeting st.operations tu)
      · have hg' : guardOK st (CoreAct.redoA u tu i ts) = true := hg
        rw [if_pos hg, hg']
        simp [newStrokes, opOf]
      · have hg' : guardOK st (CoreAct.redoA u tu i ts) = false := by
          rw [← Bool.not_eq_true]
          exact hg
        rw [if_neg hg, hg']
        simp [newStrokes]

/-- Visibility only reads the log, never the stroke store. -/
lemma isStrokeVisible_mk (ss ss' : List Stroke) (ops : List Operation)
    (sid : String) :
    isStrokeVisible ⟨ss, ops⟩ sid = isStrokeVisible ⟨ss', ops⟩ sid := by
  rw [isStrokeVisible_eq_counts, isStrokeVisible_eq_counts]

lemma emitted_eq_nil_or (st : DrawingState) (a : CoreAct) :
    emitted st a = [] ∨ (guardOK st a = true ∧ emitted st a = [opOf a]) := by
  unfold emitted
  by_cases g : guardOK st a = true
  · exact Or.inr ⟨g, if_pos g⟩
  · exact Or.inl (if_neg g)

lemma fmu_some_shape (ops : List Operation) (tu : String) (o : Operation)
    (h : findMatchingUndo ops tu = some o) :
    ∃ t ts a, o = Operation.undo t ts a tu := by
  have hp := List.find?_some (show ops.find? _ = some o from h)
  cases o with
  | undo t ts a i =>
      have : i = tu := by simpa using hp
      exact ⟨t, ts, a, by rw [this]⟩
  | stroke a b c => simp at hp
  | redo a b c d => simp at hp

lemma redo_guard_resolution (st : DrawingState) (u1 tu1 i1 : String)
    (ts1 : Int) (hg : guardOK st (CoreAct.redoA u1 tu1 i1 ts1) = true) :
    ∃ t1 ts' a', findMatchingUndo st.operations tu1 =
        some (Operation.undo t1 ts' a' tu1) ∧
      actStroke st (CoreAct.redoA u1 tu1 i1 ts1) = some t1 := by
  have h1 : (findMatchingUndo st.operations tu1).isSome = true := by
    have := (Bool.and_eq_true _ _ ▸ hg).1
    exact this
  cases hf : findMatchingUndo st.operations tu1 with
  | none => rw [hf] at h1; simp at h1
  | some o =>
      obtain ⟨t', ts', a', rfl⟩ := fmu_some_shape _ _ _ hf
      exact ⟨t', ts', a', rfl, by simp [actStroke, hf]⟩

lemma find_stroke_stable (st : DrawingState) (a1 : CoreAct) (s2 : String)
    (h : ∀ i ∈ newIds a1, i ≠ s2) :
    (st.strokes ++ newStrokes a1).find? (fun s' => s'.id = s2) =
      st.strokes.find? (fun s' => s'.id = s2) := by
  cases a1 with
  | undoA u s i ts => simp [newStrokes]
  | redoA u tu i ts => simp [newStrokes]
  | createA u t c w i ts =>
      have hi : i ≠ s2 := h i (by simp [newIds])
      rw [List.find?_append]
      simp only [newStrokes]
      have hnone : ([(⟨i, u, t, c, w, [], false⟩ : Stroke)].find?
          (fun s' => s'.id = s2)) = none := by
        simp [hi]
      rw [hnone]
      cases st.strokes.find? (fun s' => s'.id = s2) <;> rfl

lemma fmu_emitted_stable (st : DrawingState) (a1 : CoreAct) (tu2 : String)
    (h : ∀ i ∈ newIds a1, i ≠ tu2) :
    findMatchingUndo (st.operations ++ emitted st a1) tu2 =
      findMatchingUndo st.operations tu2 := by
  rcases emitted_eq_nil_or st a1 with he | ⟨hg, he⟩
  · rw [he, List.append_nil]
  · rw [he]
    cases a1 with
    | createA u t c w i ts =>
        exact findMatchingUndo_append_stroke st.operations tu2 i ts u
    | undoA u s i ts =>
        exact findMatchingUndo_append_undo st.operations tu2 s ts u i
          (h i (by simp [newIds]))
    | redoA u tu i ts =>
        exact findMatchingUndo_append_redo st.operations tu2 tu ts u i

lemma counts_emitted_stable (st : DrawingState) (a1 : CoreAct) (s2 : String)
    (hres : redosResolved st.operations = true)
    (hns : actStroke st a1 ≠ some s2) :
    undoCount (st.operations ++ emitted st a1) s2 =
        undoCount st.operations s2 ∧
    redoCount (st.operations ++ emitted st a1) s2 =
        redoCount st.operations s2 := by
  rcases emitted_eq_nil_or st a1 with he | ⟨hg, he⟩
  · rw [he, List.append_nil]
    exact ⟨rfl, rfl⟩
  · rw [he]
    cases a1 with
    | createA u t c w i ts =>
        refine ⟨?_, redoCount_append_stroke st.operations s2 i ts u⟩
        rw [undoCount_append]
        have h0 : undoCount [opOf (CoreAct.createA u t c w i ts)] s2 = 0 := rfl
        rw [h0, Nat.add_zero]
    | undoA u s i ts =>
        have hs2 : s ≠ s2 := by
          intro hc
          exact hns (by simp [actStroke, hc])
        constructor
        · rw [undoCount_append]
          have h0 : undoCount [opOf (CoreAct.undoA u s i ts)] s2 = 0 := by
            have : opOf (CoreAct.undoA u s i ts) =
                Operation.undo s ts u i := rfl
            rw [this, undoCount_single_undo, if_neg hs2]
          rw [h0, Nat.add_zero]
        · exact redoCount_append_undo st.operations s2 s ts u i hres
    | redoA u tu i ts =>
        obtain ⟨t1, ts', a', hfmu, hact⟩ :=
          redo_guard_resolution st u tu i ts hg
        have ht1 : t1 ≠ s2 := by
          intro hc
          exact hns (by rw [hact, hc])
        constructor
        · rw [undoCount_append]
          have h0 : undoCount [opOf (CoreAct.redoA u tu i ts)] s2 = 0 := rfl
          rw [h0, Nat.add_zero]
        · have := redoCount_append_redo st.operations s2 tu ts u i
          have hfalse : redoResolvesTo st.operations s2
              (Operation.redo tu ts u i) = false := by
            simp only [redoResolvesTo, hfmu]
            simp [ht1]
          rw [show opOf (CoreAct.redoA u tu i ts) =
            Operation.redo tu ts u i from rfl, this, hfalse]
          simp

/-- The guard of one core action is unchanged by first applying another
core action that concerns a different stroke, references none of its
fresh ids, and starts from a log with all redo targets resolved. -/
lemma guard_stable (st : DrawingState) (a1 a2 : CoreAct)
    (hres : redosResolved st.operations = true)
    (href : ∀ i ∈ newIds a1, i ∉ refIds a2)
    (hns : ∀ s, ¬(actStroke st a1 = some s ∧ actStroke st a2 = some s)) :
    guardOK (applyCore st a1) a2 = guardOK st a2 := by
  rw [applyCore_eq]
  cases a2 with
  | createA u2 t2 c2 w2 i2 ts2 => rfl
  | undoA u2 s2 i2 ts2 =>
      have hns2 : actStroke st a1 ≠ some s2 := by
        intro hc
        exact hns s2 ⟨hc, by simp [actStroke]⟩
      have h1 := find_stroke_stable st a1 s2 (by
        intro i hi hc
        exact href i hi (by simp [refIds, hc]))
      have h2 := counts_emitted_stable st a1 s2 hres hns2
      show (((st.strokes ++ newStrokes a1).find?
          (fun s' => s'.id = s2)).isSome &&
          isStrokeVisible ⟨st.strokes ++ newStrokes a1,
            st.operations ++ emitted st a1⟩ s2) =
        ((st.strokes.find? (fun s' => s'.id = s2)).isSome &&
          st.isStrokeVisible s2)
      rw [h1]
      have hv : isStrokeVisible ⟨st.strokes ++ newStrokes a1,
          st.operations ++ emitted st a1⟩ s2 = st.isStrokeVisible s2 := by
        rw [isStrokeVisible_eq_counts, isStrokeVisible_eq_counts]
        show decide (undoCount (st.operations ++ emitted st a1) s2 ≤
            redoCount (st.operations ++ emitted st a1) s2) = _
        rw [h2.1, h2.2]
      rw [hv]
  | redoA u2 tu2 i2 ts2 =>
      have hfmu := fmu_emitted_stable st a1 tu2 (by
        intro i hi hc
        exact href i hi (by simp [refIds, hc]))
      show ((findMatchingUndo (st.operations ++ emitted st a1) tu2).isSome &&
          !(anyRedoTargeting (st.operations ++ emitted st a1) tu2)) =
        ((findMatchingUndo st.operations tu2).isSome &&
          !(anyRedoTargeting st.operations tu2))
      rw [hfmu]
      cases hf2 : findMatchingUndo st.operations tu2 with
      | none => simp [hf2]
      | some o2 =>
          obtain ⟨t2, ts2', a2', rfl⟩ := fmu_some_shape _ _ _ hf2
          have hact2 : actStroke st (CoreAct.redoA u2 tu2 i2 ts2) = some t2 := by
            simp [actStroke, hf2]
          have hany : anyRedoTargeting (st.operations ++ emitted st a1) tu2 =
              anyRedoTargeting st.operations tu2 := by
            rcases emitted_eq_nil_or st a1 with he | ⟨hg1, he⟩
            · rw [he, List.append_nil]
            · rw [he, anyRedoTargeting_append]
              cases a1 with
              | createA u t c w i ts =>
                  have h0 : anyRedoTargeting
                      [opOf (CoreAct.createA u t c w i ts)] tu2 = false := rfl
                  rw [h0, Bool.or_false]
              | undoA u s i ts =>
                  have h0 : anyRedoTargeting
                      [opOf (CoreAct.undoA u s i ts)] tu2 = false := rfl
                  rw [h0, Bool.or_false]
              | redoA u tu1 i ts =>
                  obtain ⟨t1, ts1', a1', hfmu1, hact1⟩ :=
                    redo_guard_resolution st u tu1 i ts hg1
                  have ht : t1 ≠ t2 := by
                    intro hc
                    exact hns t2 ⟨by rw [hact1, hc], hact2⟩
                  have htu : tu1 ≠ tu2 := by
                    intro hc
                    rw [hc, hf2] at hfmu1
                    injection hfmu1 with hval
                    injection hval with e1 e2 e3 e4
                    exact ht e1.symm
                  have h0 : anyRedoTargeting
                      [opOf (CoreAct.redoA u tu1 i ts)] tu2 = false := by
                    unfold anyRedoTargeting opOf
                    simp [htu]
                  rw [h0, Bool.or_false]
          rw [hany]

lemma option_or_comm_of_none (o1 o2 : Option Operation)
    (h : o1 = none ∨ o2 = none) : o1.or o2 = o2.or o1 := by
  rcases h with h | h <;> rw [h] <;> cases o1 <;> cases o2 <;> simp_all

lemma fmu_swap (ops e1 e2 : List Operation) (tu : String)
    (h : ∀ tu' : String, findMatchingUndo e1 tu' = none ∨
      findMatchingUndo e2 tu' = none) :
    findMatchingUndo (ops ++ e1 ++ e2) tu =
      findMatchingUndo (ops ++ e2 ++ e1) tu := by
  rw [List.append_assoc, List.append_assoc, findMatchingUndo_append,
    findMatchingUndo_append, findMatchingUndo_append, findMatchingUndo_append]
  congr 1
  exact option_or_comm_of_none _ _ (h tu)

lemma undoCount_swap (ops e1 e2 : List Operation) (s : String) :
    undoCount (ops ++ e1 ++ e2) s = undoCount (ops ++ e2 ++ e1) s := by
  rw [undoCount_append, undoCount_append, undoCount_append, undoCount_append]
  omega

lemma redoCount_swap (ops e1 e2 : List Operation) (s : String)
    (hfmu : ∀ tu, findMatchingUndo (ops ++ e1 ++ e2) tu =
      findMatchingUndo (ops ++ e2 ++ e1) tu) :
    redoCount (ops ++ e1 ++ e2) s = redoCount (ops ++ e2 ++ e1) s := by
  unfold redoCount
  have hpred : ∀ op, redoResolvesTo (ops ++ e1 ++ e2) s op =
      redoResolvesTo (ops ++ e2 ++ e1) s op :=
    fun op => redoResolvesTo_congr _ _ _ _ (fun tu => hfmu tu)
  rw [List.countP_congr (fun x hx => by rw [hpred x])]
  rw [List.countP_append, List.countP_append, List.countP_append,
    List.countP_append]
  omega

lemma fmu_singleton_opOf (a : CoreAct) (tu : String) (o : Operation)
    (h : findMatchingUndo [opOf a] tu = some o) : tu ∈ newIds a := by
  cases a with
  | createA u t c w i ts => simp [opOf, findMatchingUndo] at h
  | redoA u tu1 i ts => simp [opOf, findMatchingUndo] at h
  | undoA u s i ts =>
      by_cases hi : i = tu
      · simp [newIds, hi]
      · exfalso
        unfold findMatchingUndo opOf at h
        simp [hi] at h

lemma emitted_fmu_disjoint (st1 st2 : DrawingState) (a1 a2 : CoreAct)
    (hnn : ∀ i ∈ newIds a1, i ∉ newIds a2) (tu : String) :
    findMatchingUndo (emitted st1 a1) tu = none ∨
    findMatchingUndo (emitted st2 a2) tu = none := by
  by_cases h1 : findMatchingUndo (emitted st1 a1) tu = none
  · exact Or.inl h1
  · right
    cases hf1 : findMatchingUndo (emitted st1 a1) tu with
    | none => exact absurd hf1 h1
    | some o1 =>
        have hmem1 : tu ∈ newIds a1 := by
          rcases emitted_eq_nil_or st1 a1 with he | ⟨-, he⟩
          · rw [he] at hf1; simp [findMatchingUndo] at hf1
          · rw [he] at hf1; exact fmu_singleton_opOf a1 tu o1 hf1
        cases hf2 : findMatchingUndo (emitted st2 a2) tu with
        | none => rfl
        | some o2 =>
            exfalso
            have hmem2 : tu ∈ newIds a2 := by
              rcases emitted_eq_nil_or st2 a2 with he | ⟨-, he⟩
              · rw [he] at hf2; simp [findMatchingUndo] at hf2
              · rw [he] at hf2; exact fmu_singleton_opOf a2 tu o2 hf2
            exact hnn tu hmem1 hmem2

/-- Core commutation: two core actions that concern different strokes,
use distinct fresh ids and do not reference each other's fresh ids give
the same visibility to every stroke in either application order. -/
lemma applyCore_comm_vis (st : DrawingState) (a1 a2 : CoreAct)
    (hres : redosResolved st.operations = true)
    (h12 : ∀ i ∈ newIds a1, i ∉ refIds a2)
    (h21 : ∀ i ∈ newIds a2, i ∉ refIds a1)
    (hnn : ∀ i ∈ newIds a1, i ∉ newIds a2)
    (hns : ∀ s, ¬(actStroke st a1 = some s ∧ actStroke st a2 = some s)) :
    ∀ sid, isStrokeVisible (applyCore (applyCore st a1) a2) sid =
      isStrokeVisible (applyCore (applyCore st a2) a1) sid := by
  intro sid
  have hns' : ∀ s, ¬(actStroke st a2 = some s ∧ actStroke st a1 = some s) :=
    fun s hc => hns s ⟨hc.2, hc.1⟩
  have hg2 := guard_stable st a1 a2 hres h12 hns
  have hg1 := guard_stable st a2 a1 hres h21 hns'
  have hops1 : (applyCore (applyCore st a1) a2).operations =
      st.operations ++ emitted st a1 ++ emitted st a2 := by
    rw [applyCore_eq (applyCore st a1) a2]
    show (applyCore st a1).operations ++ emitted (applyCore st a1) a2 = _
    have he : emitted (applyCore st a1) a2 = emitted st a2 := by
      unfold emitted
      rw [hg2]
    rw [he, applyCore_eq st a1]
  have hops2 : (applyCore (applyCore st a2) a1).operations =
      st.operations ++ emitted st a2 ++ emitted st a1 := by
    rw [applyCore_eq (applyCore st a2) a1]
    show (applyCore st a2).operations ++ emitted (applyCore st a2) a1 = _
    have he : emitted (applyCore st a2) a1 = emitted st a1 := by
      unfold emitted
      rw [hg1]
    rw [he, applyCore_eq st a2]
  rw [isStrokeVisible_eq_counts, isStrokeVisible_eq_counts, hops1, hops2]
  have hfmu : ∀ tu, findMatchingUndo
      (st.operations ++ emitted st a1 ++ emitted st a2) tu =
      findMatchingUndo (st.operations ++ emitted st a2 ++ emitted st a1) tu :=
    fun tu => fmu_swap _ _ _ tu
      (fun tu' => emitted_fmu_disjoint st st a1 a2 hnn tu')
  rw [undoCount_swap, redoCount_swap _ _ _ _ hfmu]

/-- C2 counterexample.  Two operations by different authors (`b` undoes
`s1`, `c` redoes the undo `u1` of `s1`) do NOT commute: from `stHidden`,
undo-then-redo leaves `s1` visible while redo-then-undo leaves it
hidden. -/
theorem claim_C2_counterexample :
    actAuthor (CoreAct.undoA "b" "s1" "u2" 2) ≠
      actAuthor (CoreAct.redoA "c" "u1" "r1" 3) ∧
    isStrokeVisible
        (applyCore (applyCore stHidden (CoreAct.undoA "b" "s1" "u2" 2))
          (CoreAct.redoA "c" "u1" "r1" 3)) "s1" ≠
      isStrokeVisible
        (applyCore (applyCore stHidden (CoreAct.redoA "c" "u1" "r1" 3))
          (CoreAct.undoA "b" "s1" "u2" 2)) "s1" := by
  refine ⟨by decide, by decide⟩

/-- C2 amended.  (1) Two core operations issued by different authors
commute — same final visibility for every stroke in either order —
provided they concern different strokes (and, as uuid freshness
guarantees, use distinct fresh ids and do not reference each other's
fresh ids) and the log's redo targets are resolved.  (2) In particular,
for strokes S1 and S2 of different authors with S2 visible, undoing S1
leaves S2 visible. -/
theorem claim_C2_amended :
    (∀ (st : DrawingState) (a1 a2 : CoreAct),
      redosResolved st.operations = true →
      actAuthor a1 ≠ actAuthor a2 →
      (∀ i ∈ newIds a1, i ∉ refIds a2) →
      (∀ i ∈ newIds a2, i ∉ refIds a1) →
      (∀ i ∈ newIds a1, i ∉ newIds a2) →
      (∀ s, ¬(actStroke st a1 = some s ∧ actStroke st a2 = some s)) →
      ∀ sid, isStrokeVisible (applyCore (applyCore st a1) a2) sid =
        isStrokeVisible (applyCore (applyCore st a2) a1) sid) ∧
    (∀ (st : DrawingState) (a s1 s2 i : String) (ts : Int) (k1 k2 : Stroke),
      redosResolved st.operations = true →
      st.getStroke s1 = some k1 → st.getStroke s2 = some k2 →
      k1.userId ≠ k2.userId →
      st.isStrokeVisible s2 = true →
      (undoStroke a s1 i ts st).2.isStrokeVisible s2 = true) := by
  constructor
  · intro st a1 a2 hres hauth h12 h21 hnn hns sid
    exact applyCore_comm_vis st a1 a2 hres h12 h21 hnn hns sid
  · intro st a s1 s2 i ts k1 k2 hres h1 h2 hus hvis
    have hs12 : s1 ≠ s2 := by
      intro hc
      rw [hc, h2] at h1
      injection h1 with hk
      exact hus (by rw [hk])
    rw [undoStroke_eq]
    by_cases hg : (st.strokes.find? (fun s' => s'.id = s1)).isSome
        && st.isStrokeVisible s1
    · rw [if_pos hg]
      show isStrokeVisible
        ⟨st.strokes, st.operations ++ [Operation.undo s1 ts a i]⟩ s2 = true
      rw [isStrokeVisible_eq_counts]
      show decide (undoCount (st.operations ++ [Operation.undo s1 ts a i]) s2 ≤
        redoCount (st.operations ++ [Operation.undo s1 ts a i]) s2) = true
      rw [undoCount_append, undoCount_single_undo, if_neg hs12,
        Nat.add_zero, redoCount_append_undo _ _ _ _ _ _ hres]
      rw [isStrokeVisible_eq_counts] at hvis
      exact hvis
    · rw [if_neg hg]
      exact hvis

/-- Witness for C2 amended: both parts instantiated on `stTwo` with
authors `x` and `y` acting on the different strokes `s1` and `s2`. -/
theorem claim_C2_witness :
    isStrokeVisible
        (applyCore (applyCore stTwo (CoreAct.undoA "x" "s1" "u7" 7))
          (CoreAct.undoA "y" "s2" "u8" 8)) "s1" =
      isStrokeVisible
        (applyCore (applyCore stTwo (CoreAct.undoA "y" "s2" "u8" 8))
          (CoreAct.undoA "x" "s1" "u7" 7)) "s1" ∧
    (undoStroke "b" "s2" "u7" 7 stTwo).2.isStrokeVisible "s1" = true := by
  constructor
  · exact claim_C2_amended.1 stTwo
      (CoreAct.undoA "x" "s1" "u7" 7) (CoreAct.undoA "y" "s2" "u8" 8)
      (by decide) (by decide) (by decide) (by decide) (by decide)
      (by
        intro s hc
        rcases hc with ⟨hc1, hc2⟩
        have e1 : s = "s1" := by
          have : actStroke stTwo (CoreAct.undoA "x" "s1" "u7" 7) =
              some "s1" := rfl
          rw [this] at hc1
          injection hc1 with e
          exact e.symm
        have e2 : s = "s2" := by
          have : actStroke stTwo (CoreAct.undoA "y" "s2" "u8" 8) =
              some "s2" := rfl
          rw [this] at hc2
          injection hc2 with e
          exact e.symm
        rw [e1] at e2
        exact absurd e2 (by decide))
      "s1"
  · exact claim_C2_amended.2 stTwo "b" "s2" "s1" "u7" 7
      ⟨"s2", "b", Tool.eraser, "blue", 2, [], false⟩
      ⟨"s1", "a", Tool.brush, "red", 1, [], true⟩
      (by decide) (by decide) (by decide) (by decide) (by decide)

end DrawingState
